import Mathlib

/-!
Verification of the in-process retrieval core of `mcp-service`:
document chunking (`internal/chunker`), the local TF-IDF + feature-hashing
embedding provider (`internal/mcp`), and the inverted-index hybrid scorer
(`ragclassic`).  Go strings are modelled as Lean `String`/`List Char`
(character positions coincide with Go byte positions on ASCII text, and the
regex character classes are modelled on the ASCII fragment, with `\p{L}`
restricted to ASCII letters); Go `float64` is modelled as `ℝ`; Go maps are
modelled as association lists (insertion at first-free position) or as
functions with the zero value as default, matching Go map-lookup semantics.
-/

namespace McpService

/-! ### Chunker (`internal/chunker/chunker.go`, `chunker.go`: `chunkText`) -/

/-- Effective window size: `if size <= 0 { size = 800 }`. -/
def chunkEffSize (size : Int) : Nat :=
  if size ≤ 0 then 800 else size.toNat

/-- Effective overlap: `if overlap < 0 { overlap = 0 }`. -/
def chunkEffOverlap (overlap : Int) : Nat :=
  if overlap < 0 then 0 else overlap.toNat

/-- The `for start := 0; start < n;` loop of `chunkText`, with explicit fuel
(the Go loop has no built-in bound; `none` means the fuel ran out before the
loop exited).  Each iteration appends `string(runes[start:end])` with
`end = min(start+size, n)`, stops when `end == n`, and otherwise continues
from `start = end - overlap` clamped at `0` (Nat subtraction). -/
def chunkLoop (runes : List Char) (size overlap : Nat) :
    Nat → Nat → List String → Option (List String)
  | 0, _, _ => none
  | fuel + 1, start, acc =>
    if start < runes.length then
      let e := min (start + size) runes.length
      let acc' := acc ++ [String.mk ((runes.drop start).take (e - start))]
      if e = runes.length then some acc'
      else chunkLoop runes size overlap fuel (e - overlap) acc'
    else some acc

/-- Model of `chunkText(text, size, overlap)` run with the given amount of fuel. -/
def chunkTextFuel (fuel : Nat) (text : String) (size overlap : Int) :
    Option (List String) :=
  chunkLoop text.toList (chunkEffSize size) (chunkEffOverlap overlap) fuel 0 []

/-- The `chunkText` loop terminates on the given input: some finite amount of
fuel suffices for the loop to exit and deliver its window list. -/
def chunkTextTerminates (text : String) (size overlap : Int) : Prop :=
  ∃ fuel, (chunkTextFuel fuel text size overlap).isSome

/-- On a 3-rune text with `size = 2`, `overlap = 2`, every iteration maps
`start = 0` back to `start = 0`, so no amount of fuel completes the loop. -/
theorem chunkLoop_aaa_stuck (fuel : Nat) (acc : List String) :
    chunkLoop ("aaa".toList) 2 2 fuel 0 acc = none := by
  induction fuel generalizing acc with
  | zero => rfl
  | succ n ih =>
    have h3 : ("aaa".toList).length = 3 := by decide
    simp only [chunkLoop, h3]
    norm_num
    exact ih _

/-- C1 counterexample: `chunkText` does **not** terminate for every clamped
overlap.  With `size = 2` and `overlap = 2` on the text `"aaa"`, the window
start never advances (`start = end − overlap` returns to `0`), so the loop
runs forever: no fuel bound makes the loop exit. -/
theorem chunkText_nonterminating_cex : ¬ chunkTextTerminates "aaa" 2 2 := by
  rintro ⟨fuel, h⟩
  have he : chunkEffSize 2 = 2 := by decide
  have ho : chunkEffOverlap 2 = 2 := by decide
  rw [chunkTextFuel, he, ho, chunkLoop_aaa_stuck] at h
  simp at h

/-- Progress lemma: when the effective overlap is strictly below the effective
size, `runes.length − start + 1` units of fuel always suffice. -/
theorem chunkLoop_isSome_of_overlap_lt (runes : List Char) (size overlap : Nat)
    (hlt : overlap < size) :
    ∀ fuel start acc, runes.length - start < fuel →
      (chunkLoop runes size overlap fuel start acc).isSome := by
  intro fuel
  induction fuel with
  | zero => intro start acc h; omega
  | succ n ih =>
    intro start acc h
    by_cases hs : start < runes.length
    · simp only [chunkLoop, hs, if_true]
      by_cases he : min (start + size) runes.length = runes.length
      · simp [he]
      · simp only [he, if_false]
        apply ih
        have hmin : min (start + size) runes.length = start + size := by omega
        omega
    · simp [chunkLoop, hs]

/-- C1 amended: whenever the effective overlap is strictly smaller than the
effective window size, the `chunkText` loop terminates (its window start
advances by `size − overlap ≥ 1` on every continuing iteration). -/
theorem chunkText_terminates_of_overlap_lt_size (text : String)
    (size overlap : Int)
    (h : chunkEffOverlap overlap < chunkEffSize size) :
    chunkTextTerminates text size overlap := by
  refine ⟨text.toList.length + 1, ?_⟩
  exact chunkLoop_isSome_of_overlap_lt _ _ _ h _ 0 [] (by omega)

/-- Witness for the amended C1 at `text = "abcde"`, `size = 2`,
`overlap = 1`. -/
theorem chunkText_terminates_witness :
    chunkEffOverlap 1 < chunkEffSize 2 ∧ chunkTextTerminates "abcde" 2 1 :=
  ⟨by decide, chunkText_terminates_of_overlap_lt_size "abcde" 2 1 (by decide)⟩

/-! ### Tokenizers

`ragclassic.tokenize` lowercases and extracts maximal runs matching
`[A-Za-z0-9_\p{L}]+`; `mcp.tokenizeText` lowercases, replaces `[^\w\s]` by a
space, splits on `\s+` and drops tokens of length ≤ 2 or in a stop-word set.
The character classes are modelled on ASCII (`\p{L}` as ASCII letters,
`\w = [0-9A-Za-z_]`, `\s = [\t\n\f\r ]`). -/

/-- The class `[A-Za-z0-9_\p{L}]` of `wordRE` (ASCII fragment). -/
def wordREClass (c : Char) : Bool :=
  c.isAlphanum || c == '_'

/-- The Go regexp class `\w` = `[0-9A-Za-z_]`. -/
def wClass (c : Char) : Bool :=
  c.isAlphanum || c == '_'

/-- The Go regexp class `\s` = `[\t\n\f\r ]`. -/
def isSpaceGo (c : Char) : Bool :=
  c == ' ' || c == '\t' || c == '\n' || c == '\r' || c == '\x0c'

/-- Maximal runs of characters satisfying `p` (the behaviour of
`FindAllString` for a class regex `[class]+`, and of splitting on runs of
`¬p` characters, once empty boundary fragments are discarded).  `cur` holds
the current run, reversed. -/
def runsAux (p : Char → Bool) : List Char → List Char → List (List Char)
  | [], cur => if cur = [] then [] else [cur.reverse]
  | c :: cs, cur =>
    if p c then runsAux p cs (c :: cur)
    else if cur = [] then runsAux p cs []
    else cur.reverse :: runsAux p cs []

/-- All maximal runs of `p`-characters of `l`, in order. -/
def tokenRuns (p : Char → Bool) (l : List Char) : List (List Char) :=
  runsAux p l []

/-- Model of `ragclassic.tokenize`: lowercase, then `wordRE.FindAllString`. -/
def tokenize (s : String) : List String :=
  (tokenRuns wordREClass (s.toList.map Char.toLower)).map fun l => String.mk l

/-- The `[^\w\s]` → `" "` replacement step of `tokenizeText`. -/
def stripNonWordSpace (c : Char) : Char :=
  if wClass c || isSpaceGo c then c else ' '

/-- The fixed stop-word set of `tokenizeText`. -/
def stopWords : List String :=
  ["the", "a", "an", "and", "or",
   "but", "in", "on", "at", "to",
   "for", "of", "with", "by", "is",
   "are", "was", "were", "be", "been",
   "have", "has", "had", "do", "does",
   "did", "will", "would", "could", "should"]

/-- Model of `mcp.tokenizeText`: lowercase, replace `[^\w\s]` by a space, split on
`\s+` (empty boundary fragments and `TrimSpace` are absorbed by the
`len > 2` filter: a non-empty fragment between whitespace runs contains no
whitespace), then keep tokens of length > 2 that are not stop words. -/
def tokenizeText (s : String) : List String :=
  ((tokenRuns (fun c => !isSpaceGo c)
      ((s.toList.map Char.toLower).map stripNonWordSpace)).map fun l =>
    String.mk l).filter fun t => decide (2 < t.length) && !(stopWords.contains t)

/-- C3 counterexample: the index tokenizer and the embedding tokenizer are
**not** the same function: on the input `"the"` the index tokenizer returns
`["the"]` while the embedding tokenizer drops the stop word and returns
`[]`. -/
theorem tokenize_ne_tokenizeText_cex :
    tokenize "the" = ["the"] ∧ tokenizeText "the" = [] ∧
      tokenize "the" ≠ tokenizeText "the" := by
  refine ⟨by decide, by decide, ?_⟩
  decide

/-- A `\s` character is never a `\w` character. -/
theorem space_not_wClass {c : Char} (h : isSpaceGo c = true) :
    wClass c = false := by
  simp only [isSpaceGo, Bool.or_eq_true, beq_iff_eq] at h
  rcases h with ((((h | h) | h) | h) | h) <;> subst h <;> decide

/-- A `\w` character is never a `\s` character. -/
theorem wClass_not_space {c : Char} (h : wClass c = true) :
    isSpaceGo c = false := by
  cases hs : isSpaceGo c
  · rfl
  · rw [space_not_wClass hs] at h
    exact absurd h (by simp)

/-- Replacing non-word non-space characters by spaces and then taking maximal
runs of non-space characters is the same as taking maximal runs of `\w`
characters directly. -/
theorem tokenRuns_strip (l : List Char) :
    ∀ cur, runsAux (fun c => !isSpaceGo c) (l.map stripNonWordSpace) cur =
      runsAux wClass l cur := by
  induction l with
  | nil => intro cur; rfl
  | cons c cs ih =>
    intro cur
    by_cases hw : wClass c = true
    · have hs : isSpaceGo c = false := wClass_not_space hw
      have hstrip : stripNonWordSpace c = c := by
        simp [stripNonWordSpace, hw]
      simp only [List.map_cons, runsAux, hstrip, hs, hw, Bool.not_false,
        if_true]
      exact ih _
    · have hw' : wClass c = false := by simpa using hw
      by_cases hs : isSpaceGo c = true
      · have hstrip : stripNonWordSpace c = c := by
          simp [stripNonWordSpace, hs]
        simp only [List.map_cons, runsAux, hstrip, hs, hw', Bool.not_true,
          if_false]
        by_cases hcur : cur = [] <;> simp [hcur, ih]
      · have hs0 : isSpaceGo c = false := by simpa using hs
        have hstrip : stripNonWordSpace c = ' ' := by
          simp [stripNonWordSpace, hw', hs0]
        have hs' : isSpaceGo ' ' = true := by decide
        simp only [List.map_cons, runsAux, hstrip, hs', hs0, hw',
          Bool.not_true, if_false]
        by_cases hcur : cur = [] <;> simp [hcur, ih]

/-- C3 amended: the index tokenizer is not identical to the embedding
tokenizer; rather, on ASCII text the embedding tokenizer equals the index
tokenizer followed by the length-and-stop-word filter: it drops exactly the
tokens of length ≤ 2 or in the stop-word set.  (The ASCII hypothesis marks
the scope of the model, in which `\p{L}` is restricted to ASCII letters.) -/
theorem tokenizeText_eq_filter_tokenize (s : String)
    (hascii : s.toList.all (fun c => c.toNat < 128) = true) :
    tokenizeText s =
      (tokenize s).filter fun t => decide (2 < t.length) &&
        !(stopWords.contains t) := by
  unfold tokenizeText tokenize tokenRuns
  rw [tokenRuns_strip]
  rfl

/-- Witness for the amended C3 on the ASCII input `"Cats and the DOGS fly!"`. -/
theorem tokenizeText_eq_filter_tokenize_witness :
    ("Cats and the DOGS fly!".toList.all (fun c => c.toNat < 128) = true) ∧
      tokenizeText "Cats and the DOGS fly!" =
        (tokenize "Cats and the DOGS fly!").filter fun t =>
          decide (2 < t.length) && !(stopWords.contains t) :=
  ⟨by decide, tokenizeText_eq_filter_tokenize _ (by decide)⟩

/-! ### Local embedding provider (`internal/mcp/mcp.go`)

`float64` values are modelled as `ℝ`.  The MD5 digest of `crypto/md5` is an
external primitive; it is modelled as an explicit parameter
`digest : String → Digest3` supplying the first three bytes of the digest of
a string, which is all `textToVector` reads of it. -/

/-- The first three bytes of a digest. -/
structure Digest3 where
  b0 : Nat
  b1 : Nat
  b2 : Nat

/-- The hash input string `fmt.Sprintf("%d_%d", idx, h)`. -/
def hashInputStr (idx h : Nat) : String :=
  toString idx ++ "_" ++ toString h

/-- The bucket computation of `textToVector`:
`pos := int(hash[0])%dim + int(hash[1])%dim + int(hash[2])%dim; pos %= dim`. -/
def hashPos (d : Digest3) (dim : Nat) : Nat :=
  (d.b0 % dim + d.b1 % dim + d.b2 % dim) % dim

/-- Model of `vector[pos] += x` (out-of-range positions never occur in the code since
`pos % dim < dim = len(vector)`; `List.set` is a no-op there). -/
noncomputable def addAt (v : List ℝ) (i : Nat) (x : ℝ) : List ℝ :=
  v.set i (v.getD i 0 + x)

/-- One iteration of the `for h := 0; h < 3; h++` hashing loop:
`vector[pos] += float32(val / 3.0)` at the bucket of `"<idx>_<h>"`. -/
noncomputable def hashStep (digest : String → Digest3) (dim : Nat) (idx : Nat) (val : ℝ)
    (v : List ℝ) (h : Nat) : List ℝ :=
  addAt v (hashPos (digest (hashInputStr idx h)) dim) (val / 3)

/-- The whole hashing loop for one `(idx, val)` pair of the sparse TF-IDF
vector. -/
noncomputable def hashFoldPair (digest : String → Digest3) (dim : Nat) (v : List ℝ)
    (idx : Nat) (val : ℝ) : List ℝ :=
  (List.range 3).foldl (hashStep digest dim idx val) v

/-- Association-list lookup, returning `none` when the key is absent
(a Go map read of a missing key yields the zero value; `lookupNat` below
materialises that default). -/
def alookup {α : Type} (m : List (String × α)) (k : String) : Option α :=
  (m.find? fun p => p.1 == k).map Prod.snd

/-- Go map read with default `0`. -/
def lookupNat (m : List (String × Nat)) (k : String) : Nat :=
  (alookup m k).getD 0

/-- Byte-order comparison of ASCII strings (`sort.Strings` order). -/
def charListLe : List Char → List Char → Bool
  | [], _ => true
  | _ :: _, [] => false
  | a :: as, b :: bs =>
    if a < b then true else if b < a then false else charListLe as bs

/-- The `sort.Strings` comparator. -/
def strLeb (a b : String) : Bool :=
  charListLe a.toList b.toList

/-- The provider: `vocab` (term → index), `idf` (term → value, default `0`
for terms absent from the map), the fixed output dimension, and the
vocabulary size. -/
structure LocalEmbeddingProvider where
  vocab : List (String × Nat)
  idf : String → ℝ
  dim : Nat
  vocabSize : Nat

/-- Model of `NewLocalEmbeddingProvider()`: empty maps, `dim = 512`. -/
def NewLocalEmbeddingProvider : LocalEmbeddingProvider :=
  { vocab := [], idf := fun _ => 0, dim := 512, vocabSize := 0 }

/-- Document frequency of a term over a corpus: the `seen` set in
`BuildVocab` makes each text increment `docFreq[term]` at most once, so the
count is the number of corpus texts whose token list contains the term. -/
def docFreqOf (texts : List String) (term : String) : Nat :=
  (texts.filter fun tx => (tokenizeText tx).contains term).length

/-- The sorted unique term list of `BuildVocab` (the keys of `vocabSet`,
sorted by `sort.Strings`). -/
def vocabListOf (texts : List String) : List String :=
  ((texts.flatMap tokenizeText).dedup).mergeSort strLeb

/-- Model of `BuildVocab`: assign each sorted unique term its position as index, and
set `idf(term) = ln(totalDocs / (df + 1))` for every term with nonzero
document frequency.  (In the program `BuildVocab` only ever runs on a
provider whose maps are empty — the constructor output, or the lazy path of
`Embed` guarded by `len(p.vocab) == 0` — so writing the maps outright is
faithful.) -/
noncomputable def BuildVocab (p : LocalEmbeddingProvider)
    (texts : List String) : LocalEmbeddingProvider :=
  { vocab := (vocabListOf texts).enum.map fun it => (it.2, it.1)
    idf := fun t =>
      if docFreqOf texts t ≠ 0 then
        Real.log ((texts.length : ℝ) / ((docFreqOf texts t : ℝ) + 1))
      else p.idf t
    dim := p.dim
    vocabSize := (vocabListOf texts).length }

/-- The sparse TF-IDF pairs of `textToVector`: for each distinct term of the
text that is in the vocabulary, its index and
`(tf / totalTerms) * idf(term)` (iteration over the keys of the `tf` map,
one entry per distinct term). -/
noncomputable def sparseTfidf (p : LocalEmbeddingProvider)
    (terms : List String) : List (Nat × ℝ) :=
  terms.dedup.filterMap fun t =>
    match alookup p.vocab t with
    | some i =>
      some (i, ((terms.count t : ℝ) / (terms.length : ℝ)) * p.idf t)
    | none => none

/-- The final normalisation of `textToVector`: L2-normalise
(`if norm > 0`), leaving the vector unchanged when the norm is zero.  (The
`norm` local of the source is written out twice here.) -/
noncomputable def l2normalize (v : List ℝ) : List ℝ :=
  if 0 < Real.sqrt (v.foldl (fun a x => a + x * x) 0) then
    v.map fun x => x / Real.sqrt (v.foldl (fun a x => a + x * x) 0)
  else v

/-- Model of `textToVector`: tokenize, build the sparse TF-IDF pairs, fold every pair
through the three-way feature hashing into a dense zero vector of length
`dim`, then L2-normalise. -/
noncomputable def textToVector (digest : String → Digest3)
    (p : LocalEmbeddingProvider) (text : String) : List ℝ :=
  l2normalize ((sparseTfidf p (tokenizeText text)).foldl
    (fun v pr => hashFoldPair digest p.dim v pr.1 pr.2)
    (List.replicate p.dim 0))

/-- Model of `Embed`: when the vocabulary is empty it is silently built from the
input batch, then every text is vectorised; the returned error is always
`nil`, modelled as `Except.ok`. -/
noncomputable def Embed (digest : String → Digest3)
    (p : LocalEmbeddingProvider) (texts : List String) :
    LocalEmbeddingProvider × Except String (List (List ℝ)) :=
  let p' := if p.vocab.length = 0 then BuildVocab p texts else p
  (p', Except.ok (texts.map fun t => textToVector digest p' t))

/-- The vector list returned by `Embed` (its error is always `nil`). -/
noncomputable def embedVecs (digest : String → Digest3)
    (p : LocalEmbeddingProvider) (texts : List String) : List (List ℝ) :=
  match (Embed digest p texts).2 with
  | Except.ok vs => vs
  | Except.error _ => []

/-- A placeholder digest used to instantiate theorems whose content does not
depend on digest values. -/
def digest0 : String → Digest3 := fun _ => ⟨0, 0, 0⟩

/-- C2 (code bug): calling `Embed` on a provider whose vocabulary was never
built does **not** fail with a "not built" error — it silently builds the
vocabulary from the input batch (three terms here) and returns vectors
computed against it. -/
theorem embed_silently_builds_vocab :
    (Embed digest0 NewLocalEmbeddingProvider ["hello world example"]).2 =
      Except.ok (["hello world example"].map fun t =>
        textToVector digest0
          (BuildVocab NewLocalEmbeddingProvider ["hello world example"]) t) ∧
    (Embed digest0 NewLocalEmbeddingProvider
        ["hello world example"]).1.vocab.length = 3 := by
  constructor
  · simp [Embed, NewLocalEmbeddingProvider]
  · have hperm := List.mergeSort_perm
      ((["hello world example"].flatMap tokenizeText).dedup) strLeb
    have hlen := hperm.length_eq
    have hd : (tokenizeText "hello world example").dedup.length = 3 := by
      decide
    simp only [List.flatMap_cons, List.flatMap_nil, List.append_nil] at hlen
    simp [Embed, NewLocalEmbeddingProvider, BuildVocab, vocabListOf]
    omega

/-- C6: for every `(vocabulary index, weight)` pair and each `h ∈ {0,1,2}`,
`textToVector` adds `weight/3` into exactly the bucket obtained by summing
the first three bytes of the digest of `"<index>_<h>"` modulo the dimension:
the source's `int(hash[0])%dim + int(hash[1])%dim + int(hash[2])%dim`
followed by `pos %= dim` equals `(b0 + b1 + b2) % dim`, and the bucket
update touches no other position. -/
theorem textToVector_hash_buckets (digest : String → Digest3)
    (p : LocalEmbeddingProvider) (text : String) :
    textToVector digest p text =
      l2normalize ((sparseTfidf p (tokenizeText text)).foldl
        (fun v pr => hashFoldPair digest p.dim v pr.1 pr.2)
        (List.replicate p.dim 0)) ∧
    (∀ (v : List ℝ) (idx : Nat) (val : ℝ),
      hashFoldPair digest p.dim v idx val =
        hashStep digest p.dim idx val (hashStep digest p.dim idx val
          (hashStep digest p.dim idx val v 0) 1) 2) ∧
    (∀ (v : List ℝ) (idx : Nat) (val : ℝ) (h : Nat),
      hashStep digest p.dim idx val v h =
        addAt v (((digest (hashInputStr idx h)).b0 +
            (digest (hashInputStr idx h)).b1 +
            (digest (hashInputStr idx h)).b2) % p.dim) (val / 3)) ∧
    (∀ (v : List ℝ) (i : Nat) (x : ℝ) (j : Nat),
      (addAt v i x).getD j 0 =
        if j = i ∧ i < v.length then v.getD j 0 + x else v.getD j 0) := by
  refine ⟨rfl, fun v idx val => rfl, fun v idx val h => ?_, fun v i x j => ?_⟩
  · unfold hashStep hashPos
    congr 1
    exact ((Nat.mod_modEq _ _).add (Nat.mod_modEq _ _)).add (Nat.mod_modEq _ _)
  · unfold addAt
    rw [List.getD_eq_getElem?_getD, List.getElem?_set]
    by_cases hij : i = j
    · subst hij
      by_cases hlen : i < v.length
      · simp [hlen, List.getD_eq_getElem?_getD]
      · have hnone : v[i]? = none := List.getElem?_eq_none (by omega)
        simp [hlen, List.getD_eq_getElem?_getD, hnone]
    · have hne : ¬(j = i ∧ i < v.length) := fun hc => hij hc.1.symm
      simp [hij, hne, List.getD_eq_getElem?_getD]

/-- Adding at a position (`vector[pos] += x`) does not change the length. -/
theorem length_addAt (v : List ℝ) (i : Nat) (x : ℝ) :
    (addAt v i x).length = v.length :=
  List.length_set v i _

/-- The three-way hashing fold does not change the length. -/
theorem length_hashFoldPair (digest : String → Digest3) (dim : Nat)
    (v : List ℝ) (idx : Nat) (val : ℝ) :
    (hashFoldPair digest dim v idx val).length = v.length := by
  show (hashStep digest dim idx val (hashStep digest dim idx val
    (hashStep digest dim idx val v 0) 1) 2).length = v.length
  unfold hashStep
  rw [length_addAt, length_addAt, length_addAt]

/-- Folding all sparse TF-IDF pairs through the hashing does not change the
length. -/
theorem length_hash_foldl (digest : String → Digest3) (dim : Nat)
    (pairs : List (Nat × ℝ)) : ∀ v : List ℝ,
    (pairs.foldl (fun v pr => hashFoldPair digest dim v pr.1 pr.2) v).length
      = v.length := by
  induction pairs with
  | nil => intro v; rfl
  | cons pr rest ih =>
    intro v
    rw [List.foldl_cons, ih, length_hashFoldPair]

/-- L2-normalisation does not change the length. -/
theorem length_l2normalize (v : List ℝ) :
    (l2normalize v).length = v.length := by
  unfold l2normalize
  split <;> simp

/-- Every vector produced by `textToVector` has length `dim`. -/
theorem length_textToVector (digest : String → Digest3)
    (p : LocalEmbeddingProvider) (text : String) :
    (textToVector digest p text).length = p.dim := by
  unfold textToVector
  rw [length_l2normalize, length_hash_foldl, List.length_replicate]

/-- C7: for every provider state (built or not) and every batch of texts
(including empty texts and texts with no in-vocabulary term), `Embed`
returns one vector per text, each of exactly the configured dimension
`dim`. -/
theorem embed_vector_dimensions (digest : String → Digest3)
    (p : LocalEmbeddingProvider) (texts : List String) :
    (embedVecs digest p texts).map List.length =
      List.replicate texts.length p.dim := by
  have hdim :
      (if p.vocab.length = 0 then BuildVocab p texts else p).dim = p.dim := by
    split <;> rfl
  rw [show embedVecs digest p texts = texts.map fun t =>
      textToVector digest
        (if p.vocab.length = 0 then BuildVocab p texts else p) t from rfl]
  rw [List.map_map]
  have hfun : (List.length ∘ fun t => textToVector digest
      (if p.vocab.length = 0 then BuildVocab p texts else p) t) =
      fun _ : String => p.dim := by
    funext t
    simp only [Function.comp_apply, length_textToVector, hdim]
  rw [hfun, List.map_const']

/-! ### Lexical index and hybrid scorer (`ragclassic`)

Go maps are modelled as association lists: an increment of a missing key
appends the key with value `1`; the candidate iteration of `Search` walks
the posting list in list order (the Go map iteration order is unspecified;
every property proved below — set membership, lengths, sortedness — is
insensitive to this order). -/

/-- A loaded document: chunk id, raw text, token list. -/
structure Doc where
  ID : String
  Text : String
  Terms : List String
deriving DecidableEq

/-- A search result. -/
structure Hit where
  ID : String
  Score : ℝ
  Snippet : String

/-- Model of `m[k]++` on a Go `map[string]int`. -/
def alBump : List (String × Nat) → String → List (String × Nat)
  | [], k => [(k, 1)]
  | (k', v) :: rest, k =>
    if k' = k then (k', v + 1) :: rest else (k', v) :: alBump rest k

/-- Model of `m[k] = a` on a Go map. -/
def alSet {α : Type} : List (String × α) → String → α → List (String × α)
  | [], k, a => [(k, a)]
  | (k', b) :: rest, k, a =>
    if k' = k then (k', a) :: rest else (k', b) :: alSet rest k a

/-- Model of `TF[t][d]++`, creating the inner map when absent
(`if idx.TF[t] == nil { idx.TF[t] = make(map[string]int) }`). -/
def tfBump : List (String × List (String × Nat)) → String → String →
    List (String × List (String × Nat))
  | [], t, d => [(t, [(d, 1)])]
  | (t', m) :: rest, t, d =>
    if t' = t then (t', alBump m d) :: rest else (t', m) :: tfBump rest t d

/-- Lookup `idx.TF[t][d]` with Go double-default `0`. -/
def tfLookup (tfm : List (String × List (String × Nat))) (t d : String) :
    Nat :=
  match alookup tfm t with
  | some m => lookupNat m d
  | none => 0

/-- Whether `TF[t]` exists and holds an entry for document `i` (the key set
iterated by `for docID := range idx.TF[t]`). -/
def tfHasEntry (tfm : List (String × List (String × Nat))) (t i : String) :
    Bool :=
  match alookup tfm t with
  | some m => (alookup m i).isSome
  | none => false

/-- The in-doc state of `buildIndex`'s inner term loop: the `TF` and `DF`
maps, the per-document `seen` set, and the `vocab` set. -/
structure TermSt where
  tf : List (String × List (String × Nat))
  df : List (String × Nat)
  seen : List String
  vocab : List String

/-- One iteration of `for _, t := range d.Terms`. -/
def stepTerm (dID : String) (st : TermSt) (t : String) : TermSt :=
  { tf := tfBump st.tf t dID
    df := if t ∈ st.seen then st.df else alBump st.df t
    seen := if t ∈ st.seen then st.seen else t :: st.seen
    vocab := if t ∈ st.vocab then st.vocab else t :: st.vocab }

/-- The running state of `buildIndex`'s document loop. -/
structure BSt where
  tf : List (String × List (String × Nat))
  df : List (String × Nat)
  vocab : List String
  docLen : List (String × Nat)
  docByID : List (String × Doc)
  totalLen : Nat

/-- One iteration of `for _, d := range docs`: a fresh `seen` set, the term
loop, then `DocLen[d.ID] = len(d.Terms)`, `DocByID[d.ID] = d`, and the
running total length. -/
def buildStep (st : BSt) (d : Doc) : BSt :=
  let ts := d.Terms.foldl (stepTerm d.ID) ⟨st.tf, st.df, [], st.vocab⟩
  { tf := ts.tf
    df := ts.df
    vocab := ts.vocab
    docLen := alSet st.docLen d.ID d.Terms.length
    docByID := alSet st.docByID d.ID d
    totalLen := st.totalLen + d.Terms.length }

/-- The inverted index of `ragclassic`. -/
structure Inverted where
  Docs : List Doc
  DF : List (String × Nat)
  TF : List (String × List (String × Nat))
  DocLen : List (String × Nat)
  AvgDocLen : ℝ
  VocabSize : Nat
  DocByID : List (String × Doc)

/-- Model of `buildIndex(docs)`: fold the document loop over an empty state, then set
`AvgDocLen` (guarded by `len(docs) > 0`) and `VocabSize`. -/
noncomputable def buildIndex (docs : List Doc) : Inverted :=
  let st := docs.foldl buildStep ⟨[], [], [], [], [], 0⟩
  { Docs := docs
    DF := st.df
    TF := st.tf
    DocLen := st.docLen
    AvgDocLen :=
      if 0 < docs.length then (st.totalLen : ℝ) / (docs.length : ℝ) else 0
    VocabSize := st.vocab.length
    DocByID := st.docByID }

/-- The constant `k1 = 1.5`. -/
def bm25K1 : ℝ := 1.5

/-- The constant `b = 0.75`. -/
def bm25B : ℝ := 0.75

/-- The per-term BM25 contribution of `bm25Score`:
`idf * (num / (den + 1e-9))` with `idf = ln((N-df+0.5)/(df+0.5+1e-9))`,
`num = tf*(k1+1)` and `den = tf + k1*(1-b+b*(docLen/avgDocLen))`. -/
noncomputable def bm25Term (N df tf docLen avgDocLen : ℝ) : ℝ :=
  Real.log ((N - df + 0.5) / (df + 0.5 + 1e-9)) *
    ((tf * (bm25K1 + 1)) /
      ((tf + bm25K1 * (1 - bm25B + bm25B * (docLen / avgDocLen))) + 1e-9))

/-- Model of `bm25Score`: sum the per-term contributions over the query terms,
skipping terms with zero document frequency. -/
noncomputable def bm25Score (idx : Inverted) (qTerms : List String)
    (docID : String) : ℝ :=
  qTerms.foldl (fun score qt =>
    if lookupNat idx.DF qt = 0 then score
    else score + bm25Term (idx.Docs.length : ℝ) (lookupNat idx.DF qt : ℝ)
      (tfLookup idx.TF qt docID : ℝ) (lookupNat idx.DocLen docID : ℝ)
      idx.AvgDocLen) 0

/-- The query term-frequency map of `cosineTF`. -/
def qtFreqOf (qTerms : List String) : List (String × Nat) :=
  qTerms.foldl alBump []

/-- Model of `cosineTF`: cosine of the query term-frequency vector against the
document's raw term frequencies over the query terms.  (The Go `dtf` map
holds an entry per query term whose posting map exists; a missing entry
reads as `0` in the dot product and adds nothing to the document norm, so
evaluating `tfLookup` per query term is the same function.) -/
noncomputable def cosineTF (idx : Inverted) (qTerms : List String)
    (docID : String) : ℝ :=
  if ((qtFreqOf qTerms).map fun pr => ((pr.2 : ℝ) * (pr.2 : ℝ))).sum = 0 ∨
      ((qtFreqOf qTerms).map fun pr =>
        ((tfLookup idx.TF pr.1 docID : ℝ) *
          (tfLookup idx.TF pr.1 docID : ℝ))).sum = 0 then 0
  else
    (((qtFreqOf qTerms).map fun pr =>
        ((pr.2 : ℝ) * (tfLookup idx.TF pr.1 docID : ℝ))).sum) /
      (Real.sqrt (((qtFreqOf qTerms).map fun pr =>
          ((pr.2 : ℝ) * (pr.2 : ℝ))).sum) *
        Real.sqrt (((qtFreqOf qTerms).map fun pr =>
          ((tfLookup idx.TF pr.1 docID : ℝ) *
            (tfLookup idx.TF pr.1 docID : ℝ))).sum))

/-- The blend constant `α = 0.2`. -/
def alphaMix : ℝ := 0.2

/-- The blended score `bm25*(1-α) + cosine*α` of `Search`. -/
noncomputable def blendScore (idx : Inverted) (q : List String)
    (docID : String) : ℝ :=
  bm25Score idx q docID * (1 - alphaMix) + cosineTF idx q docID * alphaMix

/-- The candidate set loop of `Search`: for each query term, add every
document id of its posting list not yet collected. -/
def searchCands (tfm : List (String × List (String × Nat)))
    (q : List String) : List String :=
  q.foldl (fun acc t =>
    match alookup tfm t with
    | some m =>
      m.foldl (fun acc pr =>
        if pr.1 ∈ acc then acc else acc ++ [pr.1]) acc
    | none => acc) []

/-- First index of `needle` in a character list (`strings.Index`,
character-positional on ASCII text). -/
def idxOfSub (needle : List Char) : List Char → Option Nat
  | [] => if needle.isEmpty then some 0 else none
  | c :: cs =>
    if needle.isPrefixOf (c :: cs) then some 0
    else (idxOfSub needle cs).map (· + 1)

/-- The first loop of `snippet`: the first query term (in query order) that
occurs in the lowercased text determines `pos`; empty terms are skipped;
`none` models `pos == -1`. -/
def snippetPos : List String → List Char → Option Nat
  | [], _ => none
  | t :: ts, low =>
    if t = "" then snippetPos ts low
    else
      match idxOfSub t.toList low with
      | some i => some i
      | none => snippetPos ts low

/-- Model of `strings.ReplaceAll` for a non-empty pattern (every call site skips the
empty pattern), with explicit fuel; each step consumes at least one
character, so fuel `l.length` always suffices. -/
def replaceSubFuel (pat rep : List Char) : Nat → List Char → List Char
  | 0, l => l
  | _ + 1, [] => []
  | fuel + 1, c :: cs =>
    if pat ≠ [] ∧ pat.isPrefixOf (c :: cs) then
      rep ++ replaceSubFuel pat rep fuel ((c :: cs).drop pat.length)
    else c :: replaceSubFuel pat rep fuel cs

/-- Model of `strings.ReplaceAll(l, pat, rep)` for non-empty `pat`. -/
def replaceSub (pat rep l : List Char) : List Char :=
  replaceSubFuel pat rep l.length l

/-- Model of `strings.Title` on a single token (no internal spaces): upper-case the
first character. -/
def goTitle (t : String) : String :=
  match t.toList with
  | [] => ""
  | c :: cs => String.mk (c.toUpper :: cs)

/-- The emphasis loop of `snippet`: wrap every literal and title-cased
occurrence of each non-empty query term in `**…**`. -/
def emphAll (q : List String) (seg : List Char) : List Char :=
  q.foldl (fun seg t =>
    if t = "" then seg
    else
      replaceSub (goTitle t).toList
        ('*' :: '*' :: (goTitle t).toList ++ ['*', '*'])
        (replaceSub t.toList ('*' :: '*' :: t.toList ++ ['*', '*']) seg))
    seg

/-- Model of `snippet(text, q, max)`: position a window of `max` characters so that
roughly a third precedes the first match found in the lowercased text, with
the first-`max`-characters fallback (`"…"` appended when truncated), then
emphasize. -/
def snippet (text : String) (q : List String) (max : Nat) : String :=
  match snippetPos q (text.toList.map Char.toLower) with
  | none =>
    if text.toList.length ≤ max then text
    else String.mk (text.toList.take max) ++ "…"
  | some pos =>
    String.mk (emphAll q
      ((text.toList.drop (pos - max / 3)).take
        (min ((pos - max / 3) + max) text.toList.length - (pos - max / 3))))

/-- Model of `Search(query, k)`: tokenize, collect candidates from the posting lists,
score each candidate with the blend, sort by descending score
(`sort.Slice` with `scores[i].s > scores[j].s`, modelled as a mergesort
with the complementary non-strict comparator — any correct sort for that
comparator yields a score-non-increasing permutation), truncate to `k`,
and attach snippets. -/
noncomputable def Search (idx : Inverted) (query : String) (k : Nat) :
    List Hit :=
  ((((searchCands idx.TF (tokenize query)).map fun docID =>
      (docID, blendScore idx (tokenize query) docID)).mergeSort
        (fun x y => decide (y.2 ≤ x.2))).take k).map fun pr =>
    { ID := pr.1
      Score := pr.2
      Snippet := snippet
        (match alookup idx.DocByID pr.1 with
         | some d => d.Text
         | none => "") (tokenize query) 220 }

/-! ### Association-list lemmas -/

theorem alookup_nil {α : Type} (k : String) :
    alookup ([] : List (String × α)) k = none := rfl

theorem alookup_cons {α : Type} (h : String) (a : α)
    (rest : List (String × α)) (k : String) :
    alookup ((h, a) :: rest) k =
      if h = k then some a else alookup rest k := by
  unfold alookup
  rw [List.find?_cons]
  by_cases hk : h = k
  · have : ((h, a).1 == k) = true := by simp [hk]
    simp [this, hk]
  · have : ((h, a).1 == k) = false := by simp [hk]
    simp [this, hk]

theorem lookupNat_nil (k : String) : lookupNat [] k = 0 := rfl

theorem lookupNat_cons (h : String) (a : Nat) (rest : List (String × Nat))
    (k : String) :
    lookupNat ((h, a) :: rest) k =
      if h = k then a else lookupNat rest k := by
  unfold lookupNat
  rw [alookup_cons]
  by_cases hk : h = k <;> simp [hk]

theorem alookup_alBump (m : List (String × Nat)) (k k' : String) :
    alookup (alBump m k) k' =
      if k = k' then some (lookupNat m k + 1) else alookup m k' := by
  induction m with
  | nil =>
    simp only [alBump, alookup_cons, alookup_nil, lookupNat_nil]
  | cons pr rest ih =>
    obtain ⟨h, v⟩ := pr
    simp only [alBump]
    by_cases hk : h = k
    · rw [if_pos hk, alookup_cons, alookup_cons, lookupNat_cons, if_pos hk]
      by_cases h1 : h = k'
      · rw [if_pos h1, if_pos (hk.symm.trans h1)]
      · rw [if_neg h1, if_neg (fun hc : k = k' => h1 (hk.trans hc)),
          if_neg h1]
    · rw [if_neg hk, alookup_cons]
      by_cases h1 : h = k'
      · rw [if_pos h1, if_neg (fun hc : k = k' => hk (h1.trans hc.symm)),
          alookup_cons, if_pos h1]
      · rw [if_neg h1, ih, alookup_cons, if_neg h1, lookupNat_cons,
          if_neg hk]

theorem lookupNat_alBump (m : List (String × Nat)) (k k' : String) :
    lookupNat (alBump m k) k' =
      lookupNat m k' + if k = k' then 1 else 0 := by
  unfold lookupNat
  rw [alookup_alBump]
  by_cases h : k = k'
  · subst h; simp [lookupNat]
  · simp [h]

theorem alookup_alSet {α : Type} (m : List (String × α)) (k k' : String)
    (a : α) :
    alookup (alSet m k a) k' =
      if k = k' then some a else alookup m k' := by
  induction m with
  | nil => simp only [alSet, alookup_cons, alookup_nil]
  | cons pr rest ih =>
    obtain ⟨h, b⟩ := pr
    simp only [alSet]
    by_cases hk : h = k
    · rw [if_pos hk, alookup_cons, alookup_cons]
      by_cases h1 : h = k'
      · rw [if_pos h1, if_pos (hk.symm.trans h1)]
      · rw [if_neg h1, if_neg (fun hc : k = k' => h1 (hk.trans hc)),
          if_neg h1]
    · rw [if_neg hk, alookup_cons]
      by_cases h1 : h = k'
      · rw [if_pos h1, if_neg (fun hc : k = k' => hk (h1.trans hc.symm)),
          alookup_cons, if_pos h1]
      · rw [if_neg h1, ih, alookup_cons, if_neg h1]

theorem alookup_tfBump (tfm : List (String × List (String × Nat)))
    (t d t' : String) :
    alookup (tfBump tfm t d) t' =
      if t = t' then some (alBump ((alookup tfm t).getD []) d)
      else alookup tfm t' := by
  induction tfm with
  | nil =>
    simp only [tfBump, alookup_cons, alookup_nil]
    rfl
  | cons pr rest ih =>
    obtain ⟨h, m⟩ := pr
    simp only [tfBump]
    by_cases hk : h = t
    · have e1 : alookup ((h, m) :: rest) t = some m := by
        rw [alookup_cons, if_pos hk]
      rw [if_pos hk, alookup_cons, e1, alookup_cons]
      by_cases h1 : h = t'
      · rw [if_pos h1, if_pos (hk.symm.trans h1)]
        rfl
      · rw [if_neg h1, if_neg (fun hc : t = t' => h1 (hk.trans hc)),
          if_neg h1]
    · have e1 : alookup ((h, m) :: rest) t = alookup rest t := by
        rw [alookup_cons, if_neg hk]
      rw [if_neg hk, alookup_cons, e1, alookup_cons]
      by_cases h1 : h = t'
      · rw [if_pos h1, if_neg (fun hc : t = t' => hk (h1.trans hc.symm)),
          if_pos h1]
      · rw [if_neg h1, ih, if_neg h1]

theorem tfLookup_tfBump (tfm : List (String × List (String × Nat)))
    (a d t i : String) :
    tfLookup (tfBump tfm a d) t i =
      tfLookup tfm t i + if t = a ∧ i = d then 1 else 0 := by
  unfold tfLookup
  rw [alookup_tfBump]
  by_cases ht : a = t
  · rw [if_pos ht]
    cases h : alookup tfm a with
    | none =>
      have h' : alookup tfm t = none := ht ▸ h
      simp only [h, h', Option.getD_none]
      rw [lookupNat_alBump, lookupNat_nil]
      by_cases hi : d = i
      · rw [if_pos hi, if_pos ⟨ht.symm, hi.symm⟩]
      · rw [if_neg hi, if_neg (fun hc => hi hc.2.symm)]
    | some m =>
      have h' : alookup tfm t = some m := ht ▸ h
      simp only [h, h', Option.getD_some]
      rw [lookupNat_alBump]
      by_cases hi : d = i
      · rw [if_pos hi, if_pos ⟨ht.symm, hi.symm⟩]
      · rw [if_neg hi, if_neg (fun hc => hi hc.2.symm)]
  · rw [if_neg ht, if_neg (fun hc => ht hc.1.symm)]
    exact (Nat.add_zero _).symm

theorem tfHasEntry_tfBump (tfm : List (String × List (String × Nat)))
    (a d t i : String) :
    tfHasEntry (tfBump tfm a d) t i = true ↔
      tfHasEntry tfm t i = true ∨ (t = a ∧ i = d) := by
  unfold tfHasEntry
  rw [alookup_tfBump]
  by_cases ht : a = t
  · rw [if_pos ht]
    cases h : alookup tfm a with
    | none =>
      have h' : alookup tfm t = none := ht ▸ h
      simp only [h, h', Option.getD_none]
      rw [alookup_alBump, lookupNat_nil]
      by_cases hi : d = i
      · simp [hi, ht.symm]
      · rw [if_neg hi, alookup_nil]
        simp only [Option.isSome_none, Bool.false_eq_true, false_iff,
          not_or, not_and]
        exact ⟨fun hc => hc, fun _ hc => hi hc.symm⟩
    | some m =>
      have h' : alookup tfm t = some m := ht ▸ h
      simp only [h, h', Option.getD_some]
      rw [alookup_alBump]
      by_cases hi : d = i
      · simp [hi, ht.symm]
      · rw [if_neg hi]
        constructor
        · exact fun hs => Or.inl hs
        · rintro (hs | ⟨-, hc⟩)
          · exact hs
          · exact absurd hc.symm hi
  · rw [if_neg ht]
    constructor
    · exact fun hs => Or.inl hs
    · rintro (hs | ⟨hc, -⟩)
      · exact hs
      · exact absurd hc.symm ht

theorem lookupNat_alSet (m : List (String × Nat)) (k k' : String) (v : Nat) :
    lookupNat (alSet m k v) k' =
      if k = k' then v else lookupNat m k' := by
  unfold lookupNat
  rw [alookup_alSet]
  by_cases h : k = k' <;> simp [h]

/-! ### Characterisation of `buildIndex`'s folds -/

/-- Effect of the term loop on `TF`: each occurrence of `t` in the terms adds
one to `TF[t][dID]`. -/
theorem foldl_stepTerm_tf (dID : String) (terms : List String) :
    ∀ (st : TermSt) (t i : String),
      tfLookup ((terms.foldl (stepTerm dID) st).tf) t i =
        tfLookup st.tf t i + if i = dID then terms.count t else 0 := by
  induction terms with
  | nil => intro st t i; simp
  | cons a rest ih =>
    intro st t i
    rw [List.foldl_cons, ih]
    show tfLookup (tfBump st.tf a dID) t i + _ = _
    rw [tfLookup_tfBump, List.count_cons]
    by_cases hi : i = dID
    · by_cases hta : t = a
      · simp [hi, hta]
        omega
      · have : (a == t) = false := by
          simp only [beq_eq_false_iff_ne, ne_eq]
          exact fun hc => hta hc.symm
        simp [hi, hta, this]
    · simp [hi, fun hc : t = a ∧ i = dID => hi hc.2]

/-- Effect of the term loop on the per-document `seen` set. -/
theorem foldl_stepTerm_seen (dID : String) (terms : List String) :
    ∀ (st : TermSt) (t : String),
      t ∈ (terms.foldl (stepTerm dID) st).seen ↔ t ∈ terms ∨ t ∈ st.seen := by
  induction terms with
  | nil => intro st t; simp
  | cons a rest ih =>
    intro st t
    rw [List.foldl_cons, ih, List.mem_cons]
    by_cases ha : a ∈ st.seen
    · simp only [stepTerm, if_pos ha]
      constructor
      · rintro (h | h)
        · exact Or.inl (Or.inr h)
        · exact Or.inr h
      · rintro ((rfl | h) | h)
        · exact Or.inr ha
        · exact Or.inl h
        · exact Or.inr h
    · simp only [stepTerm, if_neg ha, List.mem_cons]
      tauto

/-- Effect of the term loop on `DF`: one increment per term occurring in the
document and not yet seen. -/
theorem foldl_stepTerm_df (dID : String) (terms : List String) :
    ∀ (st : TermSt) (t : String),
      lookupNat ((terms.foldl (stepTerm dID) st).df) t =
        lookupNat st.df t + if t ∈ terms ∧ t ∉ st.seen then 1 else 0 := by
  induction terms with
  | nil => intro st t; simp
  | cons a rest ih =>
    intro st t
    rw [List.foldl_cons, ih]
    by_cases ha : a ∈ st.seen
    · simp only [stepTerm, if_pos ha, List.mem_cons]
      by_cases h1 : t ∈ rest ∧ t ∉ st.seen
      · rw [if_pos h1, if_pos ⟨Or.inr h1.1, h1.2⟩]
      · rw [if_neg h1]
        by_cases h2 : (t = a ∨ t ∈ rest) ∧ t ∉ st.seen
        · rcases h2.1 with rfl | hm
          · exact absurd ha h2.2
          · exact absurd ⟨hm, h2.2⟩ h1
        · rw [if_neg h2]
    · simp only [stepTerm, if_neg ha]
      rw [lookupNat_alBump]
      by_cases h1 : a = t <;> by_cases h2 : t ∈ rest <;>
        by_cases h3 : t ∈ st.seen <;>
        simp [h1, h2, h3, List.mem_cons, ha] <;>
        first
        | omega
        | exact fun hc => h1 hc.symm
        | exact ha (by rw [h1]; exact h3)

/-- Effect of the term loop on `TF`-key presence. -/
theorem foldl_stepTerm_tfHasEntry (dID : String) (terms : List String) :
    ∀ (st : TermSt) (t i : String),
      tfHasEntry ((terms.foldl (stepTerm dID) st).tf) t i = true ↔
        tfHasEntry st.tf t i = true ∨ (t ∈ terms ∧ i = dID) := by
  induction terms with
  | nil => intro st t i; simp
  | cons a rest ih =>
    intro st t i
    rw [List.foldl_cons, ih]
    show tfHasEntry (tfBump st.tf a dID) t i = true ∨ _ ↔ _
    rw [tfHasEntry_tfBump, List.mem_cons]
    tauto

/-- One document step: `TF` gains the document's term counts. -/
theorem buildStep_tf (st : BSt) (d : Doc) (t i : String) :
    tfLookup (buildStep st d).tf t i =
      tfLookup st.tf t i + if i = d.ID then d.Terms.count t else 0 := by
  show tfLookup
    ((d.Terms.foldl (stepTerm d.ID) ⟨st.tf, st.df, [], st.vocab⟩).tf) t i = _
  rw [foldl_stepTerm_tf]

/-- One document step: `DF` gains one per term contained in the document. -/
theorem buildStep_df (st : BSt) (d : Doc) (t : String) :
    lookupNat (buildStep st d).df t =
      lookupNat st.df t + if t ∈ d.Terms then 1 else 0 := by
  show lookupNat
    ((d.Terms.foldl (stepTerm d.ID) ⟨st.tf, st.df, [], st.vocab⟩).df) t = _
  rw [foldl_stepTerm_df]
  by_cases h : t ∈ d.Terms <;> simp [h]

/-- One document step: `TF`-key presence gains the document's pairs. -/
theorem buildStep_tfHasEntry (st : BSt) (d : Doc) (t i : String) :
    tfHasEntry (buildStep st d).tf t i = true ↔
      tfHasEntry st.tf t i = true ∨ (t ∈ d.Terms ∧ i = d.ID) := by
  show tfHasEntry
    ((d.Terms.foldl (stepTerm d.ID) ⟨st.tf, st.df, [], st.vocab⟩).tf) t i =
      true ↔ _
  rw [foldl_stepTerm_tfHasEntry]

/-- One document step: `DocLen` and `DocByID` are written at the document's
id. -/
theorem buildStep_docLen (st : BSt) (d : Doc) :
    (buildStep st d).docLen = alSet st.docLen d.ID d.Terms.length := rfl

/-- Effect of the whole document loop on `DF`: each document containing `t`
adds one. -/
theorem foldl_buildStep_df (docs : List Doc) :
    ∀ (st : BSt) (t : String),
      lookupNat ((docs.foldl buildStep st).df) t =
        lookupNat st.df t +
          (docs.filter fun d => decide (t ∈ d.Terms)).length := by
  induction docs with
  | nil => intro st t; simp
  | cons d rest ih =>
    intro st t
    rw [List.foldl_cons, ih, buildStep_df, List.filter_cons]
    by_cases h : t ∈ d.Terms
    · rw [if_pos h, if_pos (decide_eq_true h), List.length_cons]
      omega
    · rw [if_neg h, if_neg (fun hc => h (of_decide_eq_true hc))]
      omega

/-- Effect of the whole document loop on `TF`: each document with id `i`
adds its count of `t`. -/
theorem foldl_buildStep_tf (docs : List Doc) :
    ∀ (st : BSt) (t i : String),
      tfLookup ((docs.foldl buildStep st).tf) t i =
        tfLookup st.tf t i +
          ((docs.filter fun d => decide (d.ID = i)).map
            fun d => d.Terms.count t).sum := by
  induction docs with
  | nil => intro st t i; simp
  | cons d rest ih =>
    intro st t i
    rw [List.foldl_cons, ih, buildStep_tf, List.filter_cons]
    by_cases h : d.ID = i
    · rw [if_pos h.symm, if_pos (decide_eq_true h), List.map_cons,
        List.sum_cons]
      omega
    · rw [if_neg (fun hc => h hc.symm),
        if_neg (fun hc => h (of_decide_eq_true hc))]
      omega

/-- Effect of the whole document loop on `TF`-key presence. -/
theorem foldl_buildStep_tfHasEntry (docs : List Doc) :
    ∀ (st : BSt) (t i : String),
      tfHasEntry ((docs.foldl buildStep st).tf) t i = true ↔
        tfHasEntry st.tf t i = true ∨
          ∃ d ∈ docs, d.ID = i ∧ t ∈ d.Terms := by
  induction docs with
  | nil => intro st t i; simp
  | cons d rest ih =>
    intro st t i
    rw [List.foldl_cons, ih, buildStep_tfHasEntry]
    constructor
    · rintro ((hs | ⟨hm, rfl⟩) | ⟨d', hd', hid, hm⟩)
      · exact Or.inl hs
      · exact Or.inr ⟨d, List.mem_cons_self _ _, rfl, hm⟩
      · exact Or.inr ⟨d', List.mem_cons_of_mem _ hd', hid, hm⟩
    · rintro (hs | ⟨d', hd', hid, hm⟩)
      · exact Or.inl (Or.inl hs)
      · rcases List.mem_cons.mp hd' with rfl | hr
        · exact Or.inl (Or.inr ⟨hm, hid.symm⟩)
        · exact Or.inr ⟨d', hr, hid, hm⟩

/-- Documents whose id never occurs leave `DocLen` untouched. -/
theorem foldl_buildStep_docLen_untouched (docs : List Doc) :
    ∀ (st : BSt) (i : String), (∀ d ∈ docs, d.ID ≠ i) →
      lookupNat ((docs.foldl buildStep st).docLen) i =
        lookupNat st.docLen i := by
  induction docs with
  | nil => intro st i _; rfl
  | cons d rest ih =>
    intro st i hne
    rw [List.foldl_cons,
      ih _ _ (fun d' hd' => hne d' (List.mem_cons_of_mem _ hd')),
      buildStep_docLen, lookupNat_alSet,
      if_neg (hne d (List.mem_cons_self _ _))]

/-- With pairwise-distinct ids, filtering a document list by one member's id
returns exactly that member. -/
theorem filter_id_eq_singleton (docs : List Doc)
    (hnd : (docs.map Doc.ID).Nodup) (d : Doc) (hd : d ∈ docs) :
    docs.filter (fun d' => decide (d'.ID = d.ID)) = [d] := by
  induction docs with
  | nil => cases hd
  | cons a rest ih =>
    rw [List.map_cons, List.nodup_cons] at hnd
    rcases List.mem_cons.mp hd with rfl | hr
    · rw [List.filter_cons, if_pos (by simp)]
      have : rest.filter (fun d' => decide (d'.ID = d.ID)) = [] := by
        rw [List.filter_eq_nil_iff]
        intro d' hd'
        simp only [decide_eq_true_eq]
        exact fun hc => hnd.1 (hc ▸ List.mem_map_of_mem Doc.ID hd')
      rw [this]
    · rw [List.filter_cons, if_neg, ih hnd.2 hr]
      simp only [decide_eq_true_eq]
      exact fun hc => hnd.1 (hc ▸ List.mem_map_of_mem Doc.ID hr)

/-- With pairwise-distinct ids, `DocLen` of the built state maps each
document's id to its term-list length. -/
theorem foldl_buildStep_docLen_of_nodup (docs : List Doc) :
    ∀ (st : BSt), (docs.map Doc.ID).Nodup → ∀ d ∈ docs,
      lookupNat ((docs.foldl buildStep st).docLen) d.ID =
        d.Terms.length := by
  induction docs with
  | nil => intro st _ d hd; cases hd
  | cons a rest ih =>
    intro st hnd d hd
    rw [List.map_cons, List.nodup_cons] at hnd
    rcases List.mem_cons.mp hd with rfl | hr
    · rw [List.foldl_cons,
        foldl_buildStep_docLen_untouched rest _ d.ID
          (fun d' hd' hc => hnd.1 (hc ▸ List.mem_map_of_mem Doc.ID hd')),
        buildStep_docLen, lookupNat_alSet, if_pos rfl]
    · rw [List.foldl_cons]
      exact ih _ hnd.2 d hr

/-- C10 counterexample: with two documents sharing the id `"a"`, the built
index violates `DocLen[d] = |d.Terms|` for the first of them (`DocLen["a"]`
ends up `2`, the last writer, while the first document has one term). -/
theorem buildIndex_duplicate_id_cex :
    ∃ d ∈ ([⟨"a", "", ["foo"]⟩, ⟨"a", "", ["foo", "bar"]⟩] : List Doc),
      lookupNat (buildIndex
        [⟨"a", "", ["foo"]⟩, ⟨"a", "", ["foo", "bar"]⟩]).DocLen d.ID ≠
        d.Terms.length := by
  refine ⟨⟨"a", "", ["foo"]⟩, by decide, ?_⟩
  decide

/-- C10 amended: for every document list whose ids are pairwise distinct,
the built index satisfies the claimed invariants: `DF[t]` counts the
documents containing `t`; `DocLen[d.ID] = |d.Terms|`; `TF[t][d.ID]` is the
occurrence count of `t` in `d` (zero for terms not in `d`); and the sum of
`TF[t][d.ID]` over the distinct terms of `d` is `|d.Terms|`. -/
theorem buildIndex_invariants (docs : List Doc)
    (hnd : (docs.map Doc.ID).Nodup) :
    (∀ t, lookupNat (buildIndex docs).DF t =
      (docs.filter fun d => decide (t ∈ d.Terms)).length) ∧
    (∀ d ∈ docs,
      lookupNat (buildIndex docs).DocLen d.ID = d.Terms.length) ∧
    (∀ d ∈ docs, ∀ t,
      tfLookup (buildIndex docs).TF t d.ID = d.Terms.count t) ∧
    (∀ d ∈ docs,
      (d.Terms.dedup.map fun t =>
        tfLookup (buildIndex docs).TF t d.ID).sum = d.Terms.length) := by
  have htf : ∀ d ∈ docs, ∀ t,
      tfLookup (buildIndex docs).TF t d.ID = d.Terms.count t := by
    intro d hd t
    show tfLookup ((docs.foldl buildStep ⟨[], [], [], [], [], 0⟩).tf)
      t d.ID = _
    rw [foldl_buildStep_tf, filter_id_eq_singleton docs hnd d hd]
    simp [tfLookup, alookup_nil]
  refine ⟨?_, ?_, htf, ?_⟩
  · intro t
    show lookupNat ((docs.foldl buildStep ⟨[], [], [], [], [], 0⟩).df) t = _
    rw [foldl_buildStep_df]
    show lookupNat [] t + _ = _
    rw [lookupNat_nil, Nat.zero_add]
  · intro d hd
    show lookupNat
      ((docs.foldl buildStep ⟨[], [], [], [], [], 0⟩).docLen) d.ID = _
    exact foldl_buildStep_docLen_of_nodup docs _ hnd d hd
  · intro d hd
    have : (d.Terms.dedup.map fun t =>
        tfLookup (buildIndex docs).TF t d.ID) =
          d.Terms.dedup.map fun t => d.Terms.count t := by
      exact List.map_congr_left fun t _ => htf d hd t
    rw [this, List.sum_map_count_dedup_eq_length]

/-! ### C4: candidates come from the posting lists -/

theorem alookup_isSome_iff {α : Type} (m : List (String × α)) (i : String) :
    (alookup m i).isSome = true ↔ ∃ pr ∈ m, pr.1 = i := by
  unfold alookup
  cases hf : m.find? (fun p => p.1 == i) with
  | none =>
    rw [List.find?_eq_none] at hf
    simp only [Option.map_none', Option.isSome_none]
    constructor
    · intro h
      simp at h
    · rintro ⟨pr, hm, hp⟩
      have := hf pr hm
      simp [hp] at this
  | some pr =>
    have hpred := List.find?_some hf
    have hmem := List.mem_of_find?_eq_some hf
    simp only [Option.map_some', Option.isSome_some, true_iff]
    exact ⟨pr, hmem, by simpa using hpred⟩

/-- The posting-list sweep only adds ids present in the posting list. -/
theorem mem_postings_foldl (m : List (String × Nat)) :
    ∀ (acc : List String) (i : String),
      i ∈ m.foldl (fun acc pr =>
        if pr.1 ∈ acc then acc else acc ++ [pr.1]) acc ↔
      i ∈ acc ∨ ∃ pr ∈ m, pr.1 = i := by
  induction m with
  | nil => intro acc i; simp
  | cons pr rest ih =>
    intro acc i
    rw [List.foldl_cons, ih]
    by_cases hc : pr.1 ∈ acc
    · rw [if_pos hc]
      constructor
      · rintro (h | ⟨q, hq, hqi⟩)
        · exact Or.inl h
        · exact Or.inr ⟨q, List.mem_cons_of_mem _ hq, hqi⟩
      · rintro (h | ⟨q, hq, hqi⟩)
        · exact Or.inl h
        · rcases List.mem_cons.mp hq with rfl | hr
          · exact Or.inl (hqi ▸ hc)
          · exact Or.inr ⟨q, hr, hqi⟩
    · rw [if_neg hc]
      constructor
      · rintro (h | ⟨q, hq, hqi⟩)
        · rcases List.mem_append.mp h with h' | h'
          · exact Or.inl h'
          · exact Or.inr ⟨pr, List.mem_cons_self _ _,
              (List.mem_singleton.mp h').symm⟩
        · exact Or.inr ⟨q, List.mem_cons_of_mem _ hq, hqi⟩
      · rintro (h | ⟨q, hq, hqi⟩)
        · exact Or.inl (List.mem_append.mpr (Or.inl h))
        · rcases List.mem_cons.mp hq with rfl | hr
          · exact Or.inl (List.mem_append.mpr
              (Or.inr (List.mem_singleton.mpr hqi.symm)))
          · exact Or.inr ⟨q, hr, hqi⟩

/-- Membership in the generalized candidate fold. -/
theorem mem_searchCands_aux (tfm : List (String × List (String × Nat)))
    (q : List String) :
    ∀ (acc : List String) (i : String),
      i ∈ q.foldl (fun acc t =>
        match alookup tfm t with
        | some m =>
          m.foldl (fun acc pr =>
            if pr.1 ∈ acc then acc else acc ++ [pr.1]) acc
        | none => acc) acc ↔
      i ∈ acc ∨ ∃ t ∈ q, tfHasEntry tfm t i = true := by
  induction q with
  | nil => intro acc i; simp
  | cons t ts ih =>
    intro acc i
    rw [List.foldl_cons, ih]
    cases h : alookup tfm t with
    | none =>
      have hf : tfHasEntry tfm t i = false := by
        unfold tfHasEntry
        rw [h]
      simp only [h, List.mem_cons]
      constructor
      · rintro (hm | ⟨u, hu, he⟩)
        · exact Or.inl hm
        · exact Or.inr ⟨u, Or.inr hu, he⟩
      · rintro (hm | ⟨u, (rfl | hu), he⟩)
        · exact Or.inl hm
        · rw [hf] at he; cases he
        · exact Or.inr ⟨u, hu, he⟩
    | some m =>
      simp only [h]
      rw [mem_postings_foldl]
      have he : tfHasEntry tfm t i = true ↔ ∃ pr ∈ m, pr.1 = i := by
        unfold tfHasEntry
        rw [h]
        exact alookup_isSome_iff m i
      constructor
      · rintro ((hm | hp) | ⟨u, hu, hue⟩)
        · exact Or.inl hm
        · exact Or.inr ⟨t, List.mem_cons_self _ _, he.mpr hp⟩
        · exact Or.inr ⟨u, List.mem_cons_of_mem _ hu, hue⟩
      · rintro (hm | ⟨u, hu, hue⟩)
        · exact Or.inl (Or.inl hm)
        · rcases List.mem_cons.mp hu with rfl | hr
          · exact Or.inl (Or.inr (he.mp hue))
          · exact Or.inr ⟨u, hr, hue⟩

/-- Candidate membership: exactly the ids keyed in some query term's posting
list. -/
theorem mem_searchCands (tfm : List (String × List (String × Nat)))
    (q : List String) (i : String) :
    i ∈ searchCands tfm q ↔ ∃ t ∈ q, tfHasEntry tfm t i = true := by
  unfold searchCands
  rw [mem_searchCands_aux]
  simp

/-- C4: over a built index, the candidate set of `Search` is exactly the set
of documents sharing at least one query term (the union of the posting lists
of the query terms), and in particular every returned hit identifies a
document containing at least one query term; a document sharing no term with
the query is never a candidate and never appears in the results. -/
theorem search_hits_share_query_term (docs : List Doc) (query : String)
    (k : Nat) :
    (∀ i, i ∈ searchCands (buildIndex docs).TF (tokenize query) ↔
      ∃ d ∈ docs, d.ID = i ∧ ∃ t ∈ tokenize query, t ∈ d.Terms) ∧
    (∀ hit ∈ Search (buildIndex docs) query k,
      ∃ d ∈ docs, d.ID = hit.ID ∧ ∃ t ∈ tokenize query, t ∈ d.Terms) := by
  have hbt : ∀ t i, tfHasEntry (buildIndex docs).TF t i = true ↔
      ∃ d ∈ docs, d.ID = i ∧ t ∈ d.Terms := by
    intro t i
    show tfHasEntry ((docs.foldl buildStep ⟨[], [], [], [], [], 0⟩).tf)
      t i = true ↔ _
    rw [foldl_buildStep_tfHasEntry]
    have hinit : tfHasEntry ([] :
        List (String × List (String × Nat))) t i = false := rfl
    show tfHasEntry ([] : List (String × List (String × Nat))) t i
      = true ∨ _ ↔ _
    rw [hinit]
    simp
  have hcand : ∀ i, i ∈ searchCands (buildIndex docs).TF (tokenize query) ↔
      ∃ d ∈ docs, d.ID = i ∧ ∃ t ∈ tokenize query, t ∈ d.Terms := by
    intro i
    rw [mem_searchCands]
    constructor
    · rintro ⟨t, ht, hh⟩
      rcases (hbt t i).mp hh with ⟨d, hd, hid, hm⟩
      exact ⟨d, hd, hid, t, ht, hm⟩
    · rintro ⟨d, hd, hid, t, ht, hm⟩
      exact ⟨t, ht, (hbt t i).mpr ⟨d, hd, hid, hm⟩⟩
  refine ⟨hcand, ?_⟩
  intro hit hmem
  unfold Search at hmem
  rcases List.mem_map.mp hmem with ⟨pr, hpr, rfl⟩
  have hpr2 : pr ∈ (searchCands (buildIndex docs).TF (tokenize query)).map
      fun docID =>
        (docID, blendScore (buildIndex docs) (tokenize query) docID) := by
    have h1 := List.take_subset k _ hpr
    exact ((List.mergeSort_perm _ _).mem_iff).mp h1
  rcases List.mem_map.mp hpr2 with ⟨i, hi, rfl⟩
  exact (hcand i).mp hi

/-- Witness for C4 at a one-document index: the single returned hit is for
the document `"a"`, which contains the query term `"dogs"`. -/
theorem search_hits_share_query_term_witness :
    ((⟨"a",
        blendScore (buildIndex [⟨"a", "dogs sit", ["dogs", "sit"]⟩])
          (tokenize "dogs") "a",
        snippet "dogs sit" (tokenize "dogs") 220⟩ : Hit) ∈
      Search (buildIndex [⟨"a", "dogs sit", ["dogs", "sit"]⟩]) "dogs" 2) ∧
    (∃ d ∈ ([⟨"a", "dogs sit", ["dogs", "sit"]⟩] : List Doc),
      d.ID = "a" ∧ ∃ t ∈ tokenize "dogs", t ∈ d.Terms) := by
  have hc : searchCands
      (buildIndex [⟨"a", "dogs sit", ["dogs", "sit"]⟩]).TF
      (tokenize "dogs") = ["a"] := by decide
  have hs : Search (buildIndex [⟨"a", "dogs sit", ["dogs", "sit"]⟩])
      "dogs" 2 =
      [⟨"a",
        blendScore (buildIndex [⟨"a", "dogs sit", ["dogs", "sit"]⟩])
          (tokenize "dogs") "a",
        snippet "dogs sit" (tokenize "dogs") 220⟩] := by
    unfold Search
    rw [hc, List.map_cons, List.map_nil, List.mergeSort_singleton]
    rfl
  constructor
  · rw [hs]
    exact List.mem_singleton.mpr rfl
  · exact (search_hits_share_query_term
      [⟨"a", "dogs sit", ["dogs", "sit"]⟩] "dogs" 2).2 _
      (by rw [hs]; exact List.mem_singleton.mpr rfl)

/-! ### C8: at most `k` hits, sorted by non-increasing blended score -/

/-- Witness for the amended C10 on a two-document corpus with distinct
ids. -/
theorem buildIndex_invariants_witness :
    ((([⟨"a", "x", ["foo", "bar", "foo"]⟩, ⟨"b", "y", ["bar"]⟩] :
        List Doc).map Doc.ID).Nodup) ∧
    (∀ d ∈ ([⟨"a", "x", ["foo", "bar", "foo"]⟩, ⟨"b", "y", ["bar"]⟩] :
        List Doc),
      lookupNat (buildIndex [⟨"a", "x", ["foo", "bar", "foo"]⟩,
        ⟨"b", "y", ["bar"]⟩]).DocLen d.ID = d.Terms.length) :=
  ⟨by decide,
    (buildIndex_invariants
      [⟨"a", "x", ["foo", "bar", "foo"]⟩, ⟨"b", "y", ["bar"]⟩]
      (by decide)).2.1⟩

/-- C8 amended: `Search(query, k)` returns at most `k` hits, sorted in
non-increasing order of the blended score (ties between equal scores are
possible, so the order is not strictly decreasing). -/
theorem search_topk_sorted (idx : Inverted) (query : String) (k : Nat) :
    (Search idx query k).length ≤ k ∧
    List.Sorted (fun h1 h2 => h2.Score ≤ h1.Score)
      (Search idx query k) := by
  constructor
  · unfold Search
    rw [List.length_map, List.length_take]
    omega
  · unfold Search
    apply @List.Pairwise.map Hit (String × ℝ)
      (fun a b : String × ℝ => b.2 ≤ a.2) _
      (fun h1 h2 : Hit => h2.Score ≤ h1.Score)
    · intro a b h
      exact h
    · apply List.Pairwise.sublist (List.take_sublist _ _)
      have hs := @List.sorted_mergeSort (String × ℝ)
        (fun x y : String × ℝ => decide (y.2 ≤ x.2))
        (fun a b c hab hbc => by
          simp only [decide_eq_true_eq] at hab hbc ⊢
          exact le_trans hbc hab)
        (fun a b => by
          simp only [decide_eq_true_eq]
          rcases le_total b.2 a.2 with h | h
          · simp [h]
          · simp [h])
        ((searchCands idx.TF (tokenize query)).map fun docID =>
          (docID, blendScore idx (tokenize query) docID))
      exact hs.imp fun h => by simpa using h

/-- C8 counterexample: with two identical documents (distinct ids, same
text), the query `"dogs"` yields two hits with **equal** blended scores, so
the hit list is not strictly decreasing in score. -/
theorem search_ties_cex :
    ¬ List.Chain' (fun x y => y < x)
      ((Search (buildIndex
          [⟨"a", "dogs bark", ["dogs", "bark"]⟩,
           ⟨"b", "dogs bark", ["dogs", "bark"]⟩]) "dogs" 2).map
        Hit.Score) := by
  have hq : tokenize "dogs" = ["dogs"] := by decide
  have hc : searchCands
      (buildIndex [⟨"a", "dogs bark", ["dogs", "bark"]⟩,
        ⟨"b", "dogs bark", ["dogs", "bark"]⟩]).TF
      (tokenize "dogs") = ["a", "b"] := by decide
  have hblend : blendScore (buildIndex
      [⟨"a", "dogs bark", ["dogs", "bark"]⟩,
       ⟨"b", "dogs bark", ["dogs", "bark"]⟩]) (tokenize "dogs") "b" =
    blendScore (buildIndex
      [⟨"a", "dogs bark", ["dogs", "bark"]⟩,
       ⟨"b", "dogs bark", ["dogs", "bark"]⟩]) (tokenize "dogs") "a" := by
    unfold blendScore bm25Score cosineTF
    rw [hq]
    simp only [List.foldl_cons, List.foldl_nil]
    rw [show qtFreqOf ["dogs"] = [("dogs", 1)] from by decide]
    simp only [List.map_cons, List.map_nil, List.sum_cons, List.sum_nil]
    rw [show tfLookup (buildIndex
        [⟨"a", "dogs bark", ["dogs", "bark"]⟩,
         ⟨"b", "dogs bark", ["dogs", "bark"]⟩]).TF "dogs" "a" = 1 from
      by decide]
    rw [show tfLookup (buildIndex
        [⟨"a", "dogs bark", ["dogs", "bark"]⟩,
         ⟨"b", "dogs bark", ["dogs", "bark"]⟩]).TF "dogs" "b" = 1 from
      by decide]
    rw [show lookupNat (buildIndex
        [⟨"a", "dogs bark", ["dogs", "bark"]⟩,
         ⟨"b", "dogs bark", ["dogs", "bark"]⟩]).DocLen "a" = 2 from
      by decide]
    rw [show lookupNat (buildIndex
        [⟨"a", "dogs bark", ["dogs", "bark"]⟩,
         ⟨"b", "dogs bark", ["dogs", "bark"]⟩]).DocLen "b" = 2 from
      by decide]
  have hperm : (((searchCands (buildIndex
      [⟨"a", "dogs bark", ["dogs", "bark"]⟩,
       ⟨"b", "dogs bark", ["dogs", "bark"]⟩]).TF (tokenize "dogs")).map
        fun docID => (docID, blendScore (buildIndex
          [⟨"a", "dogs bark", ["dogs", "bark"]⟩,
           ⟨"b", "dogs bark", ["dogs", "bark"]⟩]) (tokenize "dogs")
          docID)).mergeSort (fun x y => decide (y.2 ≤ x.2))).map Prod.snd =
      List.replicate 2 (blendScore (buildIndex
        [⟨"a", "dogs bark", ["dogs", "bark"]⟩,
         ⟨"b", "dogs bark", ["dogs", "bark"]⟩]) (tokenize "dogs") "a") := by
    have h1 := List.mergeSort_perm
      (((searchCands (buildIndex
        [⟨"a", "dogs bark", ["dogs", "bark"]⟩,
         ⟨"b", "dogs bark", ["dogs", "bark"]⟩]).TF (tokenize "dogs")).map
          fun docID => (docID, blendScore (buildIndex
            [⟨"a", "dogs bark", ["dogs", "bark"]⟩,
             ⟨"b", "dogs bark", ["dogs", "bark"]⟩]) (tokenize "dogs")
            docID))) (fun x y => decide (y.2 ≤ x.2))
    have h2 := h1.map Prod.snd
    rw [hc] at h2
    simp only [List.map_map, List.map_cons, List.map_nil] at h2
    rw [hblend] at h2
    exact List.perm_replicate.mp h2
  intro hch
  unfold Search at hch
  rw [List.map_map] at hch
  have hlen : (((searchCands (buildIndex
      [⟨"a", "dogs bark", ["dogs", "bark"]⟩,
       ⟨"b", "dogs bark", ["dogs", "bark"]⟩]).TF (tokenize "dogs")).map
        fun docID => (docID, blendScore (buildIndex
          [⟨"a", "dogs bark", ["dogs", "bark"]⟩,
           ⟨"b", "dogs bark", ["dogs", "bark"]⟩]) (tokenize "dogs")
          docID)).mergeSort (fun x y => decide (y.2 ≤ x.2))).length = 2 := by
    rw [List.length_mergeSort, List.length_map, hc]
    rfl
  rw [List.take_of_length_le (le_of_eq hlen)] at hch
  have hch2 : List.Chain' (fun x y : ℝ => y < x)
      (((((searchCands (buildIndex
        [⟨"a", "dogs bark", ["dogs", "bark"]⟩,
         ⟨"b", "dogs bark", ["dogs", "bark"]⟩]).TF (tokenize "dogs")).map
          fun docID => (docID, blendScore (buildIndex
            [⟨"a", "dogs bark", ["dogs", "bark"]⟩,
             ⟨"b", "dogs bark", ["dogs", "bark"]⟩]) (tokenize "dogs")
            docID)).mergeSort (fun x y => decide (y.2 ≤ x.2))).map
        Prod.snd)) := hch
  rw [hperm] at hch2
  have : blendScore (buildIndex
      [⟨"a", "dogs bark", ["dogs", "bark"]⟩,
       ⟨"b", "dogs bark", ["dogs", "bark"]⟩]) (tokenize "dogs") "a" <
      blendScore (buildIndex
      [⟨"a", "dogs bark", ["dogs", "bark"]⟩,
       ⟨"b", "dogs bark", ["dogs", "bark"]⟩]) (tokenize "dogs") "a" :=
    (List.chain'_cons.mp hch2).1
  exact lt_irrefl _ this

/-! ### C5: BM25 per-term monotonicity in `tf` -/

/-- C5 counterexample: with `N = 1` document and `df = 1`, the idf factor
`ln((1−1+0.5)/(1+0.5+1e-9))` is negative, so the per-term contribution at
`tf = 1` is strictly below its value at `tf = 0` (which is `0`): the BM25
contribution is **not** monotonically non-decreasing in `tf` for every
fixed `(docLen, avgDocLen, df)`. -/
theorem bm25Term_not_monotone_cex :
    bm25Term 1 1 1 1 1 < bm25Term 1 1 0 1 1 := by
  have h0 : bm25Term 1 1 0 1 1 = 0 := by
    unfold bm25Term
    norm_num
  rw [h0]
  unfold bm25Term bm25K1 bm25B
  apply mul_neg_of_neg_of_pos
  · apply Real.log_neg
    · positivity
    · rw [div_lt_one (by norm_num)]
      norm_num
  · apply div_pos <;> norm_num

/-- C5 amended: whenever the idf factor is non-negative (the argument of the
logarithm is at least `1`, i.e. the term occurs in at most about half the
corpus), the per-term BM25 contribution is monotonically non-decreasing in
`tf` on `tf ≥ 0`, for fixed document length, average document length and
document frequency. -/
theorem bm25Term_monotone_of_idf_nonneg
    (N df docLen avgDocLen tf1 tf2 : ℝ)
    (htf1 : 0 ≤ tf1) (h12 : tf1 ≤ tf2)
    (hidf : 1 ≤ (N - df + 0.5) / (df + 0.5 + 1e-9))
    (hdoc : 0 ≤ docLen) (havg : 0 < avgDocLen) :
    bm25Term N df tf1 docLen avgDocLen ≤
      bm25Term N df tf2 docLen avgDocLen := by
  unfold bm25Term
  have hlog : 0 ≤ Real.log ((N - df + 0.5) / (df + 0.5 + 1e-9)) :=
    Real.log_nonneg hidf
  have hr : 0 ≤ docLen / avgDocLen := div_nonneg hdoc havg.le
  apply mul_le_mul_of_nonneg_left _ hlog
  have hK : 0 < bm25K1 * (1 - bm25B + bm25B * (docLen / avgDocLen))
      + 1e-9 := by
    unfold bm25K1 bm25B
    nlinarith
  have hk1 : (0:ℝ) ≤ bm25K1 + 1 := by
    unfold bm25K1
    norm_num
  rw [div_le_div_iff₀ (by nlinarith) (by nlinarith)]
  nlinarith [mul_le_mul_of_nonneg_right h12 hK.le, hk1, hK, htf1, h12]

/-- Witness for the amended C5 at `N = 10`, `df = 1`, `docLen = avg = 1`,
`tf` from `1` to `2`. -/
theorem bm25Term_monotone_witness :
    ((0:ℝ) ≤ 1 ∧ (1:ℝ) ≤ 2 ∧
      (1:ℝ) ≤ ((10:ℝ) - 1 + 0.5) / (1 + 0.5 + 1e-9) ∧
      (0:ℝ) ≤ 1 ∧ (0:ℝ) < 1) ∧
    bm25Term 10 1 1 1 1 ≤ bm25Term 10 1 2 1 1 := by
  have hidf : (1:ℝ) ≤ ((10:ℝ) - 1 + 0.5) / (1 + 0.5 + 1e-9) := by
    rw [le_div_iff₀ (by norm_num)]
    norm_num
  exact ⟨⟨by norm_num, by norm_num, hidf, by norm_num, by norm_num⟩,
    bm25Term_monotone_of_idf_nonneg 10 1 1 1 1 2 (by norm_num) (by norm_num)
      hidf (by norm_num) (by norm_num)⟩

/-! ### C9: snippet window positioning -/

/-- When no non-empty query term occurs in the scanned text, the position
loop reports no match. -/
theorem snippetPos_none (q : List String) (low : List Char)
    (h : ∀ t ∈ q, t = "" ∨ idxOfSub t.toList low = none) :
    snippetPos q low = none := by
  induction q with
  | nil => rfl
  | cons t ts ih =>
    have hrest : ∀ u ∈ ts, u = "" ∨ idxOfSub u.toList low = none :=
      fun u hu => h u (List.mem_cons_of_mem _ hu)
    by_cases ht : t = ""
    · simp only [snippetPos, if_pos ht]
      exact ih hrest
    · rcases h t (List.mem_cons_self _ _) with rfl | hn
      · exact absurd rfl ht
      · simp only [snippetPos, if_neg ht, hn]
        exact ih hrest

/-- The position loop returns the first index of the first (in query order)
non-empty term that occurs, skipping earlier terms that are empty or do not
occur. -/
theorem snippetPos_append_found (q1 : List String) (t : String)
    (q2 : List String) (low : List Char) (i : Nat)
    (h1 : ∀ u ∈ q1, u = "" ∨ idxOfSub u.toList low = none)
    (ht : t ≠ "") (hfound : idxOfSub t.toList low = some i) :
    snippetPos (q1 ++ t :: q2) low = some i := by
  induction q1 with
  | nil =>
    simp only [List.nil_append, snippetPos, if_neg ht, hfound]
  | cons u us ih =>
    have hrest : ∀ v ∈ us, v = "" ∨ idxOfSub v.toList low = none :=
      fun v hv => h1 v (List.mem_cons_of_mem _ hv)
    by_cases hu : u = ""
    · simp only [List.cons_append, snippetPos, if_pos hu]
      exact ih hrest
    · rcases h1 u (List.mem_cons_self _ _) with rfl | hn
      · exact absurd rfl hu
      · simp only [List.cons_append, snippetPos, if_neg hu, hn]
        exact ih hrest

/-- C9 counterexample: on the document `"Dogs bark"` and query term
`"dogs"`, there is **no** case-sensitive occurrence of the term in the raw
text, yet `snippet` does not fall back to the first `max` characters (the
raw text itself here): it matches case-insensitively against the lowercased
text and emphasizes the title-cased occurrence. -/
theorem snippet_case_insensitive_cex :
    (snippetPos ["dogs"] ("Dogs bark".toList) = none) ∧
    ("Dogs bark".toList.length ≤ 220) ∧
    snippet "Dogs bark" ["dogs"] 220 ≠ "Dogs bark" := by
  refine ⟨by decide, by decide, by decide⟩

/-- C9 amended: `snippet` positions its window at the first occurrence — in
the **lowercased** document text — of the first query term (in query order)
that occurs at all; when no non-empty query term occurs in the lowercased
text it falls back to the first `max` characters (the whole text when it
fits, with an ellipsis appended when truncated). -/
theorem snippet_window_position (text : String) (max : Nat) :
    (∀ q : List String,
      (∀ u ∈ q, u = "" ∨
        idxOfSub u.toList (text.toList.map Char.toLower) = none) →
      snippet text q max =
        if text.toList.length ≤ max then text
        else String.mk (text.toList.take max) ++ "…") ∧
    (∀ (q1 q2 : List String) (t : String) (i : Nat),
      (∀ u ∈ q1, u = "" ∨
        idxOfSub u.toList (text.toList.map Char.toLower) = none) →
      t ≠ "" →
      idxOfSub t.toList (text.toList.map Char.toLower) = some i →
      snippet text (q1 ++ t :: q2) max =
        String.mk (emphAll (q1 ++ t :: q2)
          ((text.toList.drop (i - max / 3)).take
            (min ((i - max / 3) + max) text.toList.length
              - (i - max / 3))))) := by
  constructor
  · intro q hq
    unfold snippet
    rw [snippetPos_none q _ hq]
  · intro q1 q2 t i h1 ht hf
    unfold snippet
    rw [snippetPos_append_found q1 t q2 _ i h1 ht hf]

/-- Witness for the amended C9: fallback on `"Dogs"` with a non-occurring
term, and window positioning at index 4 of `"big dogs"` for the term
`"dogs"` preceded by a non-occurring term. -/
theorem snippet_window_position_witness :
    snippet "Dogs" ["zzz"] 220 = "Dogs" ∧
    snippet "big Dogs" (["zzz"] ++ "dogs" :: ["big"]) 220 =
      String.mk (emphAll (["zzz"] ++ "dogs" :: ["big"])
        ((("big Dogs").toList.drop (4 - 220 / 3)).take
          (min ((4 - 220 / 3) + 220) ("big Dogs").toList.length
            - (4 - 220 / 3)))) := by
  constructor
  · have h := (snippet_window_position "Dogs" 220).1 ["zzz"] (by decide)
    rw [h]
    decide
  · exact (snippet_window_position "big Dogs" 220).2 ["zzz"] ["big"]
      "dogs" 4 (by decide) (by decide) (by decide)

end McpService
